import Mathlib

set_option maxHeartbeats 1000000
set_option maxRecDepth 4000

/-
Shallow embedding of the text-transformation core of `ca.py`:
`format_math_expressions` (the math reformatter), `convert_latex_delimiters`
(the delimiter transcoder) and `parse_flashcards_from_text` (the record
parser).  Strings are modelled as `List Char` (wrapped at the public
interface as `String`); Python's `re` substitutions are modelled by explicit
left-to-right character scans that mirror the greedy/lazy structure of each
pattern; Python whitespace is modelled by the ASCII whitespace set.
Scanners that continue on a computed remainder take a fuel argument (set to
the input length by the wrapper) so that every definition is structurally
recursive and evaluates inside the kernel.
-/

/-- ASCII whitespace, the set matched by `\s` and stripped by `str.strip()`
in Python (restricted to ASCII). -/
def isPySpace (c : Char) : Bool :=
  c == ' ' || c == '\t' || c == '\n' || c == '\r' || c == '\x0b' || c == '\x0c'

/-- Characters on which Python's `str.splitlines` breaks a line. -/
def isLineBreakChar (c : Char) : Bool :=
  c == '\n' || c == '\r' || c == '\x0b' || c == '\x0c' || c == '\x1c' ||
  c == '\x1d' || c == '\x1e' || c == '\x85' || c == '\u2028' || c == '\u2029'

/-- Python `str.lstrip()`. -/
def pyLStrip (l : List Char) : List Char := l.dropWhile isPySpace

/-- Python `str.rstrip()`. -/
def pyRStrip (l : List Char) : List Char := (l.reverse.dropWhile isPySpace).reverse

/-- Python `str.strip()`. -/
def pyStripL (l : List Char) : List Char := pyRStrip (pyLStrip l)

/-- Python `"\n".join(...)`. -/
def joinNL (ls : List (List Char)) : List Char := List.intercalate ['\n'] ls

/-- Split at the first `'$'`: `some (before, after)` when a `'$'` exists.
Models the lazy `([^$]*)\$` tail of `PATTERN_SINGLE` (a newline may occur
before the closing `'$'`, since `[^$]` matches `'\n'`). -/
def findDollar : List Char → Option (List Char × List Char)
  | [] => none
  | c :: rest =>
    if c = '$' then some ([], rest)
    else (findDollar rest).map (fun p => (c :: p.1, p.2))

/-- Split at the first `'$'` that occurs before any newline.  Models the lazy
`(.*?)\$` tail of the transcoder's inline pattern `\$(.*?)\$` (no DOTALL, so
`.` cannot cross a newline). -/
def findCloseNoNL : List Char → Option (List Char × List Char)
  | [] => none
  | c :: rest =>
    if c = '$' then some ([], rest)
    else if c = '\n' then none
    else (findCloseNoNL rest).map (fun p => (c :: p.1, p.2))

/-- Split at the first occurrence of `"$$"`: `some (before, after)`.
Models the lazy search for a closing `\$\$`. -/
def findDD : List Char → Option (List Char × List Char)
  | [] => none
  | [_] => none
  | c1 :: c2 :: rest =>
    if c1 = '$' ∧ c2 = '$' then some ([], rest)
    else (findDD (c2 :: rest)).map (fun p => (c1 :: p.1, p.2))

/-- Split at the first `'}'` that occurs before any newline.  Models the lazy
`(.*?)\}` tail of `PATTERN_TAG` (no DOTALL). -/
def findBrace : List Char → Option (List Char × List Char)
  | [] => none
  | c :: rest =>
    if c = '\x7d' then some ([], rest)
    else if c = '\n' then none
    else (findBrace rest).map (fun p => (c :: p.1, p.2))

/-- The literal `\tag{` that opens `PATTERN_TAG`. -/
def tagLit : List Char := ['\\', 't', 'a', 'g', '\x7b']

/-- Leftmost match of `PATTERN_TAG = \\tag\{(.*?)\}`: returns
`some (before, label, after)` for the first position where the literal
`\tag{` is followed by a `'}'` on the same line. -/
def findTag : List Char → Option (List Char × List Char × List Char)
  | [] => none
  | c :: rest =>
    if tagLit.isPrefixOf (c :: rest) then
      match findBrace (rest.drop 4) with
      | some (label, after) => some ([], label, after)
      | none => (findTag rest).map (fun q => (c :: q.1, q.2.1, q.2.2))
    else (findTag rest).map (fun q => (c :: q.1, q.2.1, q.2.2))

/-- `_process_math_content` from `ca.py`: remove the first `\tag{LABEL}`
directive (if any), strip the content, and append `" \quad \textbf{(LABEL)}"`. -/
def _process_math_content (content : List Char) : List Char :=
  match findTag content with
  | some (before, label, after) =>
      pyStripL (before ++ after) ++
        ((" \\quad \\textbf\x7b(".data) ++ label ++ (")\x7d".data))
  | none => pyStripL content

/-- Leftmost match of `\$\$.*?\$\$` inside one physical line (the `.` of
`PATTERN_DOUBLE` cannot cross `'\n'`): `some (pre, inner, post)` where the
line is `pre ++ "$$" ++ inner ++ "$$" ++ post` with the pair start leftmost
and the closing `"$$"` nearest. -/
def findPairInLine : List Char → Option (List Char × List Char × List Char)
  | [] => none
  | [_] => none
  | c1 :: c2 :: rest =>
    if c1 = '$' ∧ c2 = '$' then
      match findDD rest with
      | some (inner, post) => some ([], inner, post)
      | none => (findPairInLine (c2 :: rest)).map (fun q => (c1 :: q.1, q.2.1, q.2.2))
    else (findPairInLine (c2 :: rest)).map (fun q => (c1 :: q.1, q.2.1, q.2.2))

/-- `format_display_math_block` from `ca.py`: re-render one display-math
match.  The inner search `\$\$\s*(.*?)\s*\$\$` on the matched dollar block
always succeeds and yields the inner content stripped of surrounding
whitespace (the lazily matched inner content never contains `"$$"` and never
ends in `'$'`), so it is embedded as `pyStripL inner`; the defensive
`return match.group(0)` branch of the source is unreachable. -/
def format_display_math_block (indent pre inner post : List Char) : List Char :=
  let preS := pyStripL pre
  let postS := pyStripL post
  let content := _process_math_content (pyStripL inner)
  joinNL ((if preS.isEmpty then [] else [indent ++ preS]) ++
    [indent ++ ['$', '$'], indent ++ content, indent ++ ['$', '$']] ++
    (if postS.isEmpty then [] else [indent ++ postS]))

/-- One pass of `re.sub(PATTERN_DOUBLE, format_display_math_block, text,
flags=re.MULTILINE)`.  Matches of `^(\s*)(.*?)(\$\$.*?\$\$)(.*)$` can only
start at a line start; the greedy `(\s*)` swallows the maximal whitespace
run (possibly spanning newlines), and the rest of the match stays on the
physical line where that run ends.  The scan is by regions: at each line
start, if the first line bearing a non-whitespace character contains a
`$$...$$` pair, the whole region up to that line's end is one match;
otherwise the region is emitted unchanged and scanning resumes after it. -/
def fmtDisplayGo : Nat → List Char → List Char
  | 0, l => l
  | fuel + 1, l =>
    let w := l.takeWhile isPySpace
    let rest := l.dropWhile isPySpace
    if rest.isEmpty then l
    else
      let line := rest.takeWhile (fun c => c != '\n')
      let rest2 := rest.dropWhile (fun c => c != '\n')
      let emitted :=
        match findPairInLine line with
        | some (pre, inner, post) => format_display_math_block w pre inner post
        | none => w ++ line
      match rest2 with
      | [] => emitted
      | _ :: tail => emitted ++ '\n' :: fmtDisplayGo fuel tail

/-- The display-math pass of `format_math_expressions`. -/
def fmtDisplay (l : List Char) : List Char := fmtDisplayGo l.length l

/-- One pass of `re.sub(PATTERN_SINGLE, format_inline_math, text)`:
`\$([^$]*)\$` pairs up each `'$'` with the next one (content may contain
newlines but no `'$'`), and the replacement is
`"$" + _process_math_content(content) + "$"`. -/
def fmtInlineGo : Nat → List Char → List Char
  | 0, l => l
  | _ + 1, [] => []
  | fuel + 1, c :: rest =>
    if c = '$' then
      match findDollar rest with
      | some (content, rest') =>
          '$' :: (_process_math_content content ++ '$' :: fmtInlineGo fuel rest')
      | none => '$' :: fmtInlineGo fuel rest
    else c :: fmtInlineGo fuel rest

/-- The inline-math pass of `format_math_expressions`. -/
def fmtInline (l : List Char) : List Char := fmtInlineGo l.length l

/-- Number of newlines emitted for a pending run of `n` newlines by
`re.sub(r"\n{3,}", "\n\n", ...)`: a run of three or more collapses to two. -/
def emitN (n : Nat) : List Char := List.replicate (if 3 ≤ n then 2 else n) '\n'

/-- `re.sub(r"\n{3,}", "\n\n", text)`, with `n` pending newlines already read. -/
def collapseAux : Nat → List Char → List Char
  | n, [] => emitN n
  | n, c :: rest =>
    if c = '\n' then collapseAux (n + 1) rest
    else emitN n ++ c :: collapseAux 0 rest

/-- `format_math_expressions` on a (non-None) string: display pass, inline
pass, blank-line collapse, final strip. -/
def formatMathCore (t : String) : String :=
  String.mk (pyStripL (collapseAux 0 (fmtInline (fmtDisplay t.data))))

/-- `format_math_expressions` from `ca.py`, with `None` modelled as `none`. -/
def format_math_expressions : Option String → Option String
  | none => none
  | some t => some (formatMathCore t)

/-- First pass of `convert_latex_delimiters`:
`re.sub(r"\$\$(.*?)\$\$", r"\[\1\]", text, flags=re.DOTALL)` — content may
span newlines, and the lazy `(.*?)` stops at the nearest closing `"$$"`. -/
def convDisplayGo : Nat → List Char → List Char
  | 0, l => l
  | _ + 1, [] => []
  | _ + 1, [c] => [c]
  | fuel + 1, c1 :: c2 :: rest =>
    if c1 = '$' ∧ c2 = '$' then
      match findDD rest with
      | some (inner, rest') =>
          '\\' :: '[' :: (inner ++ '\\' :: ']' :: convDisplayGo fuel rest')
      | none => c1 :: convDisplayGo fuel (c2 :: rest)
    else c1 :: convDisplayGo fuel (c2 :: rest)

/-- The display pass of the transcoder. -/
def convDisplay (l : List Char) : List Char := convDisplayGo l.length l

/-- Second pass of `convert_latex_delimiters`:
`re.sub(r"\$(.*?)\$", r"\( \1 \)", text)` — no DOTALL, so a span closes at
the nearest `'$'` on the same line. -/
def convInlineGo : Nat → List Char → List Char
  | 0, l => l
  | _ + 1, [] => []
  | fuel + 1, c :: rest =>
    if c = '$' then
      match findCloseNoNL rest with
      | some (content, rest') =>
          '\\' :: '(' :: ' ' :: (content ++ ' ' :: '\\' :: ')' :: convInlineGo fuel rest')
      | none => '$' :: convInlineGo fuel rest
    else c :: convInlineGo fuel rest

/-- The inline pass of the transcoder. -/
def convInline (l : List Char) : List Char := convInlineGo l.length l

/-- `convert_latex_delimiters` from `ca.py`. -/
def convert_latex_delimiters (t : String) : String :=
  String.mk (convInline (convDisplay t.data))

/-- Break off one line as Python `str.splitlines` does: `(line, none)` when
no line-break character remains, else `(line, some rest)` with the break
(`"\r\n"` counting as one break) consumed. -/
def breakOneLine : List Char → List Char × Option (List Char)
  | [] => ([], none)
  | c :: rest =>
    if c = '\r' ∧ rest.head? = some '\n' then ([], some rest.tail)
    else if isLineBreakChar c then ([], some rest)
    else
      let p := breakOneLine rest
      (c :: p.1, p.2)

/-- Python `str.splitlines()` (keepends=False). -/
def pySplitlinesGo : Nat → List Char → List (List Char)
  | _, [] => []
  | 0, l => [l]
  | fuel + 1, l =>
    match breakOneLine l with
    | (line, none) => [line]
    | (line, some rest) => line :: pySplitlinesGo fuel rest

/-- Python `str.splitlines()`. -/
def pySplitlines (l : List Char) : List (List Char) := pySplitlinesGo l.length l

/-- Find the first occurrence of the separator `"---"`:
`some (before, after)`. -/
def findTripleDash : List Char → Option (List Char × List Char)
  | [] => none
  | [_] => none
  | [_, _] => none
  | c1 :: c2 :: c3 :: rest =>
    if c1 = '-' ∧ c2 = '-' ∧ c3 = '-' then some ([], rest)
    else (findTripleDash (c2 :: c3 :: rest)).map (fun p => (c1 :: p.1, p.2))

/-- Python `text.split("---")`. -/
def splitDashesGo : Nat → List Char → List (List Char)
  | 0, l => [l]
  | fuel + 1, l =>
    match findTripleDash l with
    | some (before, after) => before :: splitDashesGo fuel after
    | none => [l]

/-- Python `text.split("---")`. -/
def splitDashes (l : List Char) : List (List Char) := splitDashesGo l.length l

/-- The label `"front:"`. -/
def frontLabel : List Char := ['f', 'r', 'o', 'n', 't', ':']

/-- The label `"**front:"`. -/
def starFrontLabel : List Char := ['*', '*', 'f', 'r', 'o', 'n', 't', ':']

/-- The label `"back:"`. -/
def backLabel : List Char := ['b', 'a', 'c', 'k', ':']

/-- The label `"**back:"`. -/
def starBackLabel : List Char := ['*', '*', 'b', 'a', 'c', 'k', ':']

/-- A line whose `strip().lower()` starts with `"front:"` or `"**front:"`
(ASCII lowering, as in the texts this program manipulates). -/
def isFrontLine (l : List Char) : Bool :=
  let cl := (pyStripL l).map Char.toLower
  frontLabel.isPrefixOf cl || starFrontLabel.isPrefixOf cl

/-- A line whose `strip().lower()` starts with `"back:"` or `"**back:"`. -/
def isBackLine (l : List Char) : Bool :=
  let cl := (pyStripL l).map Char.toLower
  backLabel.isPrefixOf cl || starBackLabel.isPrefixOf cl

/-- The back-seeking phase of the label scan in `parse_flashcards_from_text`:
the front marker is at `f`; a line that looks like a front marker is skipped
(the source's `elif` is not reached), the first back-marker line ends the
scan (`break`). -/
def phase2 (f : Nat) : Nat → List (List Char) → Option (Nat × Nat)
  | _, [] => none
  | j, l :: rest =>
    if isFrontLine l then phase2 f (j + 1) rest
    else if isBackLine l then some (f, j)
    else phase2 f (j + 1) rest

/-- The front-seeking phase of the label scan: a back marker seen before any
front marker has no effect (`front_index == -1` keeps the branch inert). -/
def phase1 : Nat → List (List Char) → Option (Nat × Nat)
  | _, [] => none
  | j, l :: rest =>
    if isFrontLine l then phase2 j (j + 1) rest
    else phase1 (j + 1) rest

/-- The full label scan of one block: `some (front_index, back_index)` iff
the loop ends with both indices set (in which case `back > front` holds by
construction). -/
def findMarkersList (ls : List (List Char)) : Option (Nat × Nat) := phase1 0 ls

/-- The lines of a block: the block is stripped, then split into lines. -/
def blockLines (raw : List Char) : List (List Char) := pySplitlines (pyStripL raw)

/-- The marker indices found in a block. -/
def markersOf (raw : List Char) : Option (Nat × Nat) := findMarkersList (blockLines raw)

/-- `"\n".join(lines[f+1:b]).strip()` — the question extracted between the
markers. -/
def questionAt (raw : List Char) (f b : Nat) : List Char :=
  pyStripL (joinNL (((blockLines raw).drop (f + 1)).take (b - (f + 1))))

/-- `"\n".join(lines[b+1:]).strip()` — the answer extracted after the back
marker. -/
def answerAt (raw : List Char) (b : Nat) : List Char :=
  pyStripL (joinNL ((blockLines raw).drop (b + 1)))

/-- The question a block would contribute (empty when no markers are found). -/
def questionOf (raw : List Char) : List Char :=
  match markersOf raw with
  | some (f, b) => questionAt raw f b
  | none => []

/-- The answer a block would contribute (empty when no markers are found). -/
def answerOf (raw : List Char) : List Char :=
  match markersOf raw with
  | some (_, b) => answerAt raw b
  | none => []

/-- A parsed flashcard `{"question": ..., "answer": ...}`. -/
structure Card where
  question : String
  answer : String
deriving DecidableEq

/-- Processing of one separator-delimited block inside the loop of
`parse_flashcards_from_text`: empty (after stripping) blocks are skipped,
blocks without a valid front/back marker pair are skipped, and blocks whose
extracted question or answer is empty after trimming are skipped (the
source prints a diagnostic in both skip cases; diagnostics are a side
channel and do not reach the return value). -/
def processBlock (raw : List Char) : Option Card :=
  if (pyStripL raw).isEmpty then none
  else
    match markersOf raw with
    | none => none
    | some (f, b) =>
      let q := questionAt raw f b
      let a := answerAt raw b
      if q.isEmpty || a.isEmpty then none
      else some ⟨String.mk q, String.mk a⟩

/-- `parse_flashcards_from_text` from `ca.py`. -/
def parse_flashcards_from_text (t : String) : List Card :=
  if t.data.isEmpty || t.data.all isPySpace then []
  else (splitDashes t.data).filterMap processBlock

/-- Whether a character list contains three consecutive newlines (a run of
three or more `'\n'`). -/
def hasRun3 : List Char → Bool
  | a :: b :: c :: rest =>
    (a == '\n' && b == '\n' && c == '\n') || hasRun3 (b :: c :: rest)
  | _ => false

/-- Whether `pat` occurs as a contiguous substring of a character list. -/
def hasSubList (pat : List Char) : List Char → Bool
  | [] => pat.isEmpty
  | c :: rest => pat.isPrefixOf (c :: rest) || hasSubList pat rest

/-- Claim C10: when `format_math_expressions` is given `None` instead of a
string, it returns `None` rather than raising or producing a string. -/
theorem C10_none_passthrough : format_math_expressions none = none := rfl

/-- Claim C5: parsing `"Front:\nQ1\nBack:\nA1\n---\nFront:\nQ2\nBack:\nA2"`
returns exactly the two records `(Q1, A1)` and `(Q2, A2)` in that order. -/
theorem C5_parser_round_trip :
    parse_flashcards_from_text "Front:\nQ1\nBack:\nA1\n---\nFront:\nQ2\nBack:\nA2" =
      [⟨"Q1", "A1"⟩, ⟨"Q2", "A2"⟩] := by decide

/-- Claim C7: transcoding `"$$a$$ and $b$"` wraps the display span in
bracket delimiters and the inline span in parenthesis delimiters with
interior spaces; the display conversion does not consume the inline `$b$`
as part of a second display span. -/
theorem C7_transcoder_ordering :
    convert_latex_delimiters "$$a$$ and $b$" = "\\[a\\] and \\( b \\)" := by decide

/-- Claim C6: the `\tag{2.1}` directive of `"$$ x=1 \tag{2.1} $$"` is
removed and relocated: the reformatted output's content line ends with
`\quad \textbf{(2.1)}` (immediately before the closing `$$` line) and the
output contains no residual `\tag{`. -/
theorem C6_tag_relocation :
    formatMathCore "$$ x=1 \\tag\x7b2.1\x7d $$" =
        "$$\nx=1 \\quad \\textbf\x7b(2.1)\x7d\n$$" ∧
      ("\\quad \\textbf\x7b(2.1)\x7d\n$$".data.isSuffixOf
        (formatMathCore "$$ x=1 \\tag\x7b2.1\x7d $$").data) = true ∧
      hasSubList ("\\tag\x7b".data)
        (formatMathCore "$$ x=1 \\tag\x7b2.1\x7d $$").data = false :=
  ⟨by decide, by decide, by decide⟩

/-- Claim C1 fails on the code: the reformatter is not idempotent.  On the
input `"$\tag{a}\tag{b}$"` the first pass removes only the first tag
directive, so a second pass removes the remaining one and changes the text
again. -/
theorem C1_counterexample :
    formatMathCore (formatMathCore "$\\tag\x7ba\x7d\\tag\x7bb\x7d$") ≠
      formatMathCore "$\\tag\x7ba\x7d\\tag\x7bb\x7d$" := by decide

/-- Claim C2 fails on the code: the display-math pattern of the transcoder
is lazy, not greedy.  On `"$$a$$ x $$b$$"` the replaced content does not
extend from the first `$$` to the last one (which would give
`\[a$$ x $$b\]`); each span closes at the nearest `$$`. -/
theorem C2_counterexample :
    convert_latex_delimiters "$$a$$ x $$b$$" = "\\[a\\] x \\[b\\]" ∧
      convert_latex_delimiters "$$a$$ x $$b$$" ≠ "\\[a$$ x $$b\\]" :=
  ⟨by decide, by decide⟩

/-- Claim C3 fails on the code: an input that is not math-bearing (it
contains no `'$'` at all, hence neither a display nor an inline span) is
still modified by the reformatter, which always collapses blank lines and
strips the ends: `" a "` becomes `"a"`. -/
theorem C3_counterexample :
    (" a ".data.count '$' = 0) ∧ formatMathCore " a " ≠ " a " :=
  ⟨by decide, by decide⟩

/-! ### Decomposition lemmas for the scanners -/

theorem findDollar_some_eq {l a b : List Char} (h : findDollar l = some (a, b)) :
    l = a ++ '$' :: b := by
  induction l generalizing a b with
  | nil => simp [findDollar] at h
  | cons c rest ih =>
    rw [findDollar] at h
    split_ifs at h with hc
    · simp only [Option.some.injEq, Prod.mk.injEq] at h
      obtain ⟨rfl, rfl⟩ := h
      simp [hc]
    · rcases Option.map_eq_some'.mp h with ⟨⟨a', b'⟩, hfd, heq⟩
      simp only [Prod.mk.injEq] at heq
      obtain ⟨rfl, rfl⟩ := heq
      simp [ih hfd]

theorem findDollar_eq_none {l : List Char} (h : l.count '$' = 0) :
    findDollar l = none := by
  induction l with
  | nil => rfl
  | cons c rest ih =>
    rw [List.count_cons] at h
    have hc : ¬ c = '$' := by
      intro hc; simp [hc] at h
    rw [findDollar, if_neg hc, ih (by omega)]
    rfl

theorem findDD_some_eq {l a b : List Char} (h : findDD l = some (a, b)) :
    l = a ++ '$' :: '$' :: b := by
  induction l generalizing a b with
  | nil => simp [findDD] at h
  | cons c rest ih =>
    cases rest with
    | nil => simp [findDD] at h
    | cons c2 rest2 =>
      rw [findDD] at h
      split_ifs at h with hc
      · simp only [Option.some.injEq, Prod.mk.injEq] at h
        obtain ⟨rfl, rfl⟩ := h
        simp [hc.1, hc.2]
      · rcases Option.map_eq_some'.mp h with ⟨⟨a', b'⟩, hfd, heq⟩
        simp only [Prod.mk.injEq] at heq
        obtain ⟨rfl, rfl⟩ := heq
        simp [ih hfd]

theorem findPairInLine_some_eq {l pre inner post : List Char}
    (h : findPairInLine l = some (pre, inner, post)) :
    l = pre ++ '$' :: '$' :: (inner ++ '$' :: '$' :: post) := by
  induction l generalizing pre inner post with
  | nil => simp [findPairInLine] at h
  | cons c rest ih =>
    cases rest with
    | nil => simp [findPairInLine] at h
    | cons c2 rest2 =>
      rw [findPairInLine] at h
      split_ifs at h with hc
      · cases hdd : findDD rest2 with
        | none =>
          rw [hdd] at h
          rcases Option.map_eq_some'.mp h with ⟨⟨p', q'⟩, hfp, heq⟩
          simp only [Prod.mk.injEq] at heq
          obtain ⟨rfl, rfl, rfl⟩ := heq
          simp [ih hfp]
        | some p =>
          rw [hdd] at h
          simp only [Option.some.injEq, Prod.mk.injEq] at h
          obtain ⟨rfl, rfl, rfl⟩ := h
          simp [hc.1, hc.2, findDD_some_eq hdd]
      · rcases Option.map_eq_some'.mp h with ⟨⟨p', q'⟩, hfp, heq⟩
        simp only [Prod.mk.injEq] at heq
        obtain ⟨rfl, rfl, rfl⟩ := heq
        simp [ih hfp]

theorem findPairInLine_count {l pre inner post : List Char}
    (h : findPairInLine l = some (pre, inner, post)) : 2 ≤ l.count '$' := by
  rw [findPairInLine_some_eq h]
  simp [List.count_append, List.count_cons]
  omega

/-! ### The math passes do not modify text with at most one dollar sign -/

theorem fmtInlineGo_eq_self :
    ∀ (fuel : Nat) (l : List Char), l.count '$' ≤ 1 → fmtInlineGo fuel l = l := by
  intro fuel
  induction fuel with
  | zero => intro l _; rfl
  | succ fuel ih =>
    intro l hl
    match l with
    | [] => rfl
    | c :: rest =>
      rw [fmtInlineGo]
      split_ifs with hc
      · subst hc
        have h0 : rest.count '$' = 0 := by
          rw [List.count_cons] at hl
          simp at hl
          omega
        rw [findDollar_eq_none h0, ih rest (by omega)]
      · rw [ih rest (by rw [List.count_cons] at hl; omega)]

theorem dropWhile_cons_head {p : Char → Bool} :
    ∀ {l : List Char} {c : Char} {t : List Char},
      l.dropWhile p = c :: t → p c = false := by
  intro l
  induction l with
  | nil => intro c t h; simp [List.dropWhile] at h
  | cons a rest ih =>
    intro c t h
    rw [List.dropWhile] at h
    cases hp : p a with
    | true => rw [hp] at h; exact ih h
    | false =>
      rw [hp] at h
      simp only [List.cons.injEq] at h
      obtain ⟨rfl, rfl⟩ := h
      exact hp

theorem fmtDisplayGo_eq_self :
    ∀ (fuel : Nat) (l : List Char), l.count '$' ≤ 1 → fmtDisplayGo fuel l = l := by
  intro fuel
  induction fuel with
  | zero => intro l _; rfl
  | succ fuel ih =>
    intro l hl
    have hsplit : l.takeWhile isPySpace ++ l.dropWhile isPySpace = l :=
      List.takeWhile_append_dropWhile _ _
    have hsplit2 :
        (l.dropWhile isPySpace).takeWhile (fun c => c != '\n') ++
          (l.dropWhile isPySpace).dropWhile (fun c => c != '\n') =
            l.dropWhile isPySpace :=
      List.takeWhile_append_dropWhile _ _
    have hcount :
        ((l.dropWhile isPySpace).takeWhile (fun c => c != '\n')).count '$' ≤ 1 := by
      have h1 : (l.takeWhile isPySpace ++ l.dropWhile isPySpace).count '$' ≤ 1 := by
        rw [hsplit]; exact hl
      rw [List.count_append] at h1
      have h2 :
          ((l.dropWhile isPySpace).takeWhile (fun c => c != '\n') ++
            (l.dropWhile isPySpace).dropWhile (fun c => c != '\n')).count '$' ≤ 1 := by
        rw [hsplit2]; omega
      rw [List.count_append] at h2
      omega
    simp only [fmtDisplayGo]
    split_ifs with hrest
    · rfl
    · cases hfp : findPairInLine ((l.dropWhile isPySpace).takeWhile (fun c => c != '\n')) with
      | some p =>
        exfalso
        obtain ⟨pre, inner, post⟩ := p
        have h2 := findPairInLine_count hfp
        omega
      | none =>
        cases hr2 : (l.dropWhile isPySpace).dropWhile (fun c => c != '\n') with
        | nil =>
          rw [hr2, List.append_nil] at hsplit2
          show l.takeWhile isPySpace ++
              (l.dropWhile isPySpace).takeWhile (fun c => c != '\n') = l
          rw [hsplit2, hsplit]
        | cons h2 tail =>
          have hnl : h2 = '\n' := by
            have := dropWhile_cons_head (p := fun c => c != '\n') hr2
            simpa using this
          subst hnl
          have htail : tail.count '$' ≤ 1 := by
            have h1 : (l.takeWhile isPySpace ++ l.dropWhile isPySpace).count '$' ≤ 1 := by
              rw [hsplit]; exact hl
            rw [List.count_append] at h1
            have h2' := hsplit2
            rw [hr2] at h2'
            have h3 : ((l.dropWhile isPySpace).takeWhile (fun c => c != '\n') ++
                '\n' :: tail).count '$' ≤ 1 := by rw [h2']; omega
            rw [List.count_append, List.count_cons] at h3
            omega
          show (l.takeWhile isPySpace ++
              (l.dropWhile isPySpace).takeWhile (fun c => c != '\n')) ++
              '\n' :: fmtDisplayGo fuel tail = l
          rw [ih tail htail, List.append_assoc, ← hr2, hsplit2, hsplit]

/-! ### Runs of newlines, blank-line collapse, stripping -/

theorem hasRun3_cons_eq (a b c : Char) (t : List Char) :
    hasRun3 (a :: b :: c :: t) =
      ((a == '\n' && b == '\n' && c == '\n') || hasRun3 (b :: c :: t)) := rfl

theorem hasRun3_tail_false {a : Char} {m : List Char}
    (h : hasRun3 (a :: m) = false) : hasRun3 m = false := by
  cases m with
  | nil => rfl
  | cons b m2 =>
    cases m2 with
    | nil => rfl
    | cons c m3 =>
      rw [hasRun3_cons_eq] at h
      simp only [Bool.or_eq_false_iff] at h
      exact h.2

theorem hasRun3_cons_ne {c : Char} (hc : c ≠ '\n') (t : List Char) :
    hasRun3 (c :: t) = hasRun3 t := by
  cases t with
  | nil => rfl
  | cons b t2 =>
    cases t2 with
    | nil => rfl
    | cons d t3 =>
      rw [hasRun3_cons_eq]
      have h1 : (c == '\n') = false := by simp [hc]
      simp [h1]

theorem hasRun3_nl_cons_ne {c : Char} (hc : c ≠ '\n') (t : List Char) :
    hasRun3 ('\n' :: c :: t) = hasRun3 t := by
  cases t with
  | nil => rfl
  | cons d t3 =>
    rw [hasRun3_cons_eq]
    have h1 : (c == '\n') = false := by simp [hc]
    simp [h1, hasRun3_cons_ne hc]

theorem hasRun3_two_nl_cons_ne {c : Char} (hc : c ≠ '\n') (t : List Char) :
    hasRun3 ('\n' :: '\n' :: c :: t) = hasRun3 t := by
  rw [hasRun3_cons_eq]
  have h1 : (c == '\n') = false := by simp [hc]
  simp [h1, hasRun3_nl_cons_ne hc]

theorem hasRun3_replicate {n : Nat} (hn : n ≤ 2) :
    hasRun3 (List.replicate n '\n') = false := by
  interval_cases n <;> rfl

theorem hasRun3_emit {n : Nat} (hn : n ≤ 2) {c : Char} (hc : c ≠ '\n')
    {out : List Char} (h : hasRun3 out = false) :
    hasRun3 (List.replicate n '\n' ++ c :: out) = false := by
  interval_cases n
  · show hasRun3 (c :: out) = false
    rw [hasRun3_cons_ne hc]; exact h
  · show hasRun3 ('\n' :: c :: out) = false
    rw [hasRun3_nl_cons_ne hc]; exact h
  · show hasRun3 ('\n' :: '\n' :: c :: out) = false
    rw [hasRun3_two_nl_cons_ne hc]; exact h

theorem hasRun3_append_right :
    ∀ (t l : List Char), hasRun3 (t ++ l) = false → hasRun3 l = false := by
  intro t
  induction t with
  | nil => intro l h; simpa using h
  | cons a t' ih =>
    intro l h
    exact ih l (hasRun3_tail_false (by simpa using h))

theorem hasRun3_append_left :
    ∀ (l t : List Char), hasRun3 (l ++ t) = false → hasRun3 l = false := by
  intro l
  induction l with
  | nil => intro t _; rfl
  | cons a l' ih =>
    intro t h
    cases l' with
    | nil => rfl
    | cons b l2 =>
      cases l2 with
      | nil => rfl
      | cons c l3 =>
        rw [hasRun3_cons_eq]
        rw [List.cons_append, List.cons_append, List.cons_append, hasRun3_cons_eq] at h
        simp only [Bool.or_eq_false_iff] at h
        have h2 := ih t (by simpa using h.2)
        simp [h.1, h2]

theorem emitN_count (n : Nat) : (emitN n).count '$' = 0 := by
  rw [List.count_eq_zero]
  intro hm
  unfold emitN at hm
  rw [List.mem_replicate] at hm
  exact absurd hm.2 (by decide)

theorem hasRun3_emitN (n : Nat) : hasRun3 (emitN n) = false := by
  unfold emitN
  split_ifs with h3
  · exact hasRun3_replicate (by omega)
  · exact hasRun3_replicate (by omega)

theorem collapseAux_noRun3 :
    ∀ (l : List Char) (n : Nat), hasRun3 (collapseAux n l) = false := by
  intro l
  induction l with
  | nil => intro n; exact hasRun3_emitN n
  | cons c rest ih =>
    intro n
    rw [collapseAux]
    split_ifs with hc
    · exact ih (n + 1)
    · unfold emitN
      exact hasRun3_emit (by split_ifs <;> omega) hc (ih 0)

theorem collapseAux_eq_self :
    ∀ (l : List Char) (n : Nat), n ≤ 2 →
      hasRun3 (List.replicate n '\n' ++ l) = false →
      collapseAux n l = List.replicate n '\n' ++ l := by
  intro l
  induction l with
  | nil =>
    intro n hn _
    show emitN n = List.replicate n '\n' ++ []
    unfold emitN
    rw [if_neg (by omega), List.append_nil]
  | cons c rest ih =>
    intro n hn h
    rw [collapseAux]
    split_ifs with hc
    · subst hc
      have hn1 : n + 1 ≤ 2 := by
        rcases Nat.lt_or_ge n 2 with h2 | h2
        · omega
        · exfalso
          have hn2 : n = 2 := by omega
          subst hn2
          rw [show List.replicate 2 '\n' ++ '\n' :: rest = '\n' :: '\n' :: '\n' :: rest
            from rfl] at h
          rw [hasRun3_cons_eq] at h
          simp at h
      have heq : List.replicate (n + 1) '\n' ++ rest =
          List.replicate n '\n' ++ '\n' :: rest := by
        rw [List.replicate_succ']
        simp
      rw [ih (n + 1) hn1 (by rw [heq]; exact h), heq]
    · have hrest : hasRun3 rest = false :=
        hasRun3_tail_false (hasRun3_append_right _ _ h)
      have hc0 : collapseAux 0 rest = rest := by
        have h0 := ih 0 (by omega) (by simpa using hrest)
        simpa using h0
      rw [hc0]
      unfold emitN
      rw [if_neg (by omega)]

theorem collapseAux_count :
    ∀ (l : List Char) (n : Nat), (collapseAux n l).count '$' = l.count '$' := by
  intro l
  induction l with
  | nil =>
    intro n
    show (emitN n).count '$' = List.count '$' []
    rw [emitN_count]
    rfl
  | cons c rest ih =>
    intro n
    rw [collapseAux]
    split_ifs with hc
    · subst hc
      rw [ih (n + 1), List.count_cons]
      simp
    · rw [List.count_append, emitN_count, List.count_cons, List.count_cons, ih 0]
      omega

theorem pyLStrip_decomp (l : List Char) : l = l.takeWhile isPySpace ++ pyLStrip l :=
  (List.takeWhile_append_dropWhile _ _).symm

theorem pyRStrip_decomp (l : List Char) :
    l = pyRStrip l ++ (l.reverse.takeWhile isPySpace).reverse := by
  have h := List.takeWhile_append_dropWhile isPySpace l.reverse
  calc l = l.reverse.reverse := (List.reverse_reverse l).symm
    _ = (l.reverse.takeWhile isPySpace ++ l.reverse.dropWhile isPySpace).reverse := by
        rw [h]
    _ = (l.reverse.dropWhile isPySpace).reverse ++
          (l.reverse.takeWhile isPySpace).reverse := by
        rw [List.reverse_append]
    _ = pyRStrip l ++ (l.reverse.takeWhile isPySpace).reverse := rfl

theorem pyStripL_noRun3 {l : List Char} (h : hasRun3 l = false) :
    hasRun3 (pyStripL l) = false := by
  have h1 : hasRun3 (pyLStrip l) = false := by
    apply hasRun3_append_right (l.takeWhile isPySpace)
    rw [← pyLStrip_decomp]
    exact h
  show hasRun3 (pyRStrip (pyLStrip l)) = false
  apply hasRun3_append_left _ (((pyLStrip l).reverse.takeWhile isPySpace).reverse)
  rw [← pyRStrip_decomp]
  exact h1

theorem pyStripL_count_le (l : List Char) : (pyStripL l).count '$' ≤ l.count '$' := by
  have h1 : (pyLStrip l).count '$' ≤ l.count '$' := by
    conv_rhs => rw [pyLStrip_decomp l]
    rw [List.count_append]
    omega
  have h2 : (pyRStrip (pyLStrip l)).count '$' ≤ (pyLStrip l).count '$' := by
    conv_rhs => rw [pyRStrip_decomp (pyLStrip l)]
    rw [List.count_append]
    omega
  exact le_trans h2 h1

theorem dropWhile_dropWhile_self (p : Char → Bool) :
    ∀ (l : List Char), (l.dropWhile p).dropWhile p = l.dropWhile p := by
  intro l
  induction l with
  | nil => rfl
  | cons c rest ih =>
    cases hp : p c with
    | true => simp [List.dropWhile_cons, hp, ih]
    | false => simp [List.dropWhile_cons, hp]

theorem pyRStrip_idem (l : List Char) : pyRStrip (pyRStrip l) = pyRStrip l := by
  unfold pyRStrip
  rw [List.reverse_reverse, dropWhile_dropWhile_self]

theorem dropWhile_length_le (p : Char → Bool) :
    ∀ (l : List Char), (l.dropWhile p).length ≤ l.length := by
  intro l
  induction l with
  | nil => exact Nat.le_refl _
  | cons c rest ih =>
    rw [List.dropWhile_cons]
    split_ifs with hp
    · exact Nat.le_trans ih (by simp)
    · exact Nat.le_refl _

theorem head_false_of_dropWhile_eq {p : Char → Bool} {c : Char} {t : List Char}
    (h : (c :: t).dropWhile p = c :: t) : p c = false := by
  by_contra hp
  rw [Bool.not_eq_false] at hp
  rw [List.dropWhile_cons, if_pos hp] at h
  have hlen := congrArg List.length h
  have hle := dropWhile_length_le p t
  rw [List.length_cons] at hlen
  omega

theorem pyStripL_idem (l : List Char) : pyStripL (pyStripL l) = pyStripL l := by
  show pyRStrip (pyLStrip (pyRStrip (pyLStrip l))) = pyRStrip (pyLStrip l)
  have hclaim : pyLStrip (pyRStrip (pyLStrip l)) = pyRStrip (pyLStrip l) := by
    cases hr : pyRStrip (pyLStrip l) with
    | nil => rfl
    | cons c t =>
      have hdecomp := pyRStrip_decomp (pyLStrip l)
      rw [hr] at hdecomp
      have hm2 : pyLStrip (pyLStrip l) = pyLStrip l := dropWhile_dropWhile_self _ l
      rw [hdecomp] at hm2
      have hc : isPySpace c = false := by
        apply head_false_of_dropWhile_eq
          (t := t ++ (List.takeWhile isPySpace (pyLStrip l).reverse).reverse)
        have h3 := hm2
        unfold pyLStrip at h3
        rw [List.cons_append] at h3
        exact h3
      show (c :: t).dropWhile isPySpace = c :: t
      rw [List.dropWhile_cons, if_neg (by simp [hc])]
  rw [hclaim, pyRStrip_idem]

/-! ### The reformatter on inputs without math spans, and blank-line collapse -/

theorem formatMathCore_eq_of_count {t : String} (h : t.data.count '$' ≤ 1) :
    formatMathCore t = String.mk (pyStripL (collapseAux 0 t.data)) := by
  unfold formatMathCore fmtDisplay fmtInline
  rw [fmtDisplayGo_eq_self _ _ h, fmtInlineGo_eq_self _ _ h]

/-- Claim C8: the output of the reformatter never contains a run of three or
more consecutive newlines — the collapse step rewrites every such run to
exactly two, as the second conjunct illustrates end to end. -/
theorem C8_blank_line_collapse :
    (∀ t : String, hasRun3 (formatMathCore t).data = false) ∧
      formatMathCore "a\n\n\n\nb" = "a\n\nb" := by
  constructor
  · intro t
    show hasRun3 (pyStripL (collapseAux 0 (fmtInline (fmtDisplay t.data)))) = false
    exact pyStripL_noRun3 (collapseAux_noRun3 _ 0)
  · decide

/-- Claim C3 amended: on input that is not recognizably math-bearing (at
most one `'$'`, hence no inline span `\$([^$]*)\$` and no display span),
the two math passes leave the text unchanged, but the reformatter still
collapses runs of three or more newlines and strips leading/trailing
whitespace; the input is returned verbatim only when it is already
collapsed and stripped.  An unrecognized math shape such as an unterminated
`$$` is left unchanged (second conjunct). -/
theorem C3_no_math_only_collapse_and_trim :
    (∀ t : String, t.data.count '$' ≤ 1 →
      formatMathCore t = String.mk (pyStripL (collapseAux 0 t.data)) ∧
        (hasRun3 t.data = false → pyStripL t.data = t.data → formatMathCore t = t)) ∧
      formatMathCore "$$x" = "$$x" := by
  refine ⟨fun t h => ⟨formatMathCore_eq_of_count h, fun hnr hstrip => ?_⟩, by decide⟩
  rw [formatMathCore_eq_of_count h]
  have hc : collapseAux 0 t.data = t.data := by
    have h0 := collapseAux_eq_self t.data 0 (by omega) (by simpa using hnr)
    simpa using h0
  rw [hc, hstrip]

/-- Witness for the amended claim C3 at a concrete non-math input. -/
theorem C3_amended_witness :
    ("a\nb".data.count '$' ≤ 1) ∧ formatMathCore "a\nb" = "a\nb" :=
  ⟨by decide,
    (C3_no_math_only_collapse_and_trim.1 "a\nb" (by decide)).2 (by decide) (by decide)⟩

/-- Claim C1 amended: the reformatter is not idempotent on all inputs (a
span with two `\tag` directives, or a line carrying a second `$$...$$` span
after the first, is reformatted again by a second pass); it is idempotent on
every input that contains at most one `'$'` — i.e. on all text without a
recognizable math span — where it reduces to blank-line collapse plus
trimming. -/
theorem C1_amended_idempotent (t : String) (h : t.data.count '$' ≤ 1) :
    formatMathCore (formatMathCore t) = formatMathCore t := by
  have h1 : formatMathCore t = String.mk (pyStripL (collapseAux 0 t.data)) :=
    formatMathCore_eq_of_count h
  have hcount2 : (pyStripL (collapseAux 0 t.data)).count '$' ≤ 1 := by
    calc (pyStripL (collapseAux 0 t.data)).count '$'
        ≤ (collapseAux 0 t.data).count '$' := pyStripL_count_le _
      _ = t.data.count '$' := collapseAux_count _ 0
      _ ≤ 1 := h
  rw [h1]
  have h2 : formatMathCore (String.mk (pyStripL (collapseAux 0 t.data))) =
      String.mk (pyStripL (collapseAux 0 (pyStripL (collapseAux 0 t.data)))) :=
    formatMathCore_eq_of_count hcount2
  rw [h2]
  have hnr : hasRun3 (pyStripL (collapseAux 0 t.data)) = false :=
    pyStripL_noRun3 (collapseAux_noRun3 _ 0)
  have hc : collapseAux 0 (pyStripL (collapseAux 0 t.data)) =
      pyStripL (collapseAux 0 t.data) := by
    have h0 := collapseAux_eq_self (pyStripL (collapseAux 0 t.data)) 0 (by omega)
      (by simpa using hnr)
    simpa using h0
  rw [hc, pyStripL_idem]

/-- Witness for the amended claim C1 at a concrete non-math input. -/
theorem C1_amended_witness :
    ("hello $x\n\n\n\nworld".data.count '$' ≤ 1) ∧
      formatMathCore (formatMathCore "hello $x\n\n\n\nworld") =
        formatMathCore "hello $x\n\n\n\nworld" :=
  ⟨by decide, C1_amended_idempotent _ (by decide)⟩

/-! ### The transcoder's display rule is lazy, and supports multi-line content -/

theorem findDD_some_length {l a b : List Char} (h : findDD l = some (a, b)) :
    b.length + 2 ≤ l.length := by
  rw [findDD_some_eq h]
  simp

theorem convDisplayGo_irrel :
    ∀ (f1 : Nat) (l : List Char) (f2 : Nat), l.length ≤ f1 → l.length ≤ f2 →
      convDisplayGo f1 l = convDisplayGo f2 l := by
  intro f1
  induction f1 with
  | zero =>
    intro l f2 h1 _
    have hnil : l = [] := List.eq_nil_of_length_eq_zero (by omega)
    subst hnil
    cases f2 <;> rfl
  | succ f1 ih =>
    intro l f2 h1 h2
    cases l with
    | nil => cases f2 <;> rfl
    | cons c1 rest =>
      cases rest with
      | nil =>
        cases f2 with
        | zero => simp at h2
        | succ f2 => rfl
      | cons c2 rest2 =>
        cases f2 with
        | zero => simp at h2
        | succ f2 =>
          rw [convDisplayGo, convDisplayGo]
          split_ifs with hc
          · cases hdd : findDD rest2 with
            | some p =>
              obtain ⟨a, b⟩ := p
              have hlen := findDD_some_length (l := rest2) (a := a) (b := b) hdd
              have hl1 : b.length ≤ f1 := by simp at h1; omega
              have hl2 : b.length ≤ f2 := by simp at h2; omega
              show '\\' :: '[' :: (a ++ '\\' :: ']' :: convDisplayGo f1 b) =
                '\\' :: '[' :: (a ++ '\\' :: ']' :: convDisplayGo f2 b)
              rw [ih b f2 hl1 hl2]
            | none =>
              have hl1 : (c2 :: rest2).length ≤ f1 := by simp at h1 ⊢; omega
              have hl2 : (c2 :: rest2).length ≤ f2 := by simp at h2 ⊢; omega
              show c1 :: convDisplayGo f1 (c2 :: rest2) =
                c1 :: convDisplayGo f2 (c2 :: rest2)
              rw [ih (c2 :: rest2) f2 hl1 hl2]
          · have hl1 : (c2 :: rest2).length ≤ f1 := by simp at h1 ⊢; omega
            have hl2 : (c2 :: rest2).length ≤ f2 := by simp at h2 ⊢; omega
            show c1 :: convDisplayGo f1 (c2 :: rest2) =
              c1 :: convDisplayGo f2 (c2 :: rest2)
            rw [ih (c2 :: rest2) f2 hl1 hl2]

theorem findDD_append {c r : List Char} (h1 : findDD c = none)
    (h2 : c.getLast? ≠ some '$') :
    findDD (c ++ '$' :: '$' :: r) = some (c, r) := by
  induction c with
  | nil =>
    show findDD ('$' :: '$' :: r) = some ([], r)
    rw [findDD, if_pos ⟨rfl, rfl⟩]
  | cons a c' ih =>
    cases c' with
    | nil =>
      have ha : a ≠ '$' := by simpa using h2
      show findDD (a :: '$' :: '$' :: r) = some ([a], r)
      rw [findDD, if_neg (by tauto),
        show findDD ('$' :: '$' :: r) = some ([], r) from by rw [findDD, if_pos ⟨rfl, rfl⟩]]
      rfl
    | cons b c2 =>
      have hnotboth : ¬(a = '$' ∧ b = '$') := by
        rintro ⟨ha, hb⟩
        rw [findDD, if_pos ⟨ha, hb⟩] at h1
        simp at h1
      have h1' : findDD (b :: c2) = none := by
        rw [findDD, if_neg hnotboth] at h1
        exact Option.map_eq_none'.mp h1
      have h2' : (b :: c2).getLast? ≠ some '$' := by
        rw [List.getLast?_cons_cons] at h2
        exact h2
      have ih' := ih h1' h2'
      rw [List.cons_append] at ih'
      show findDD (a :: ((b :: c2) ++ '$' :: '$' :: r)) = some (a :: b :: c2, r)
      rw [List.cons_append, findDD, if_neg hnotboth, ih']
      rfl

/-- Claim C2 amended: in the display rule of `convert_latex_delimiters`,
content may span multiple lines (DOTALL), but matching is lazy
(leftmost-shortest), not greedy: a span whose content `c` contains no `$$`
closes at the nearest following `$$`, the content is wrapped in `\[ \]`,
and scanning continues after it — so an input with several `$$` pairs
yields several separate bracket spans, never one span from the first `$$`
to the last. -/
theorem C2_amended_lazy_display (c r : List Char)
    (h1 : findDD c = none) (h2 : c.getLast? ≠ some '$') :
    convDisplay ('$' :: '$' :: (c ++ '$' :: '$' :: r)) =
      '\\' :: '[' :: (c ++ '\\' :: ']' :: convDisplay r) := by
  unfold convDisplay
  have hl : ('$' :: '$' :: (c ++ '$' :: '$' :: r)).length =
      (c.length + r.length + 3) + 1 := by
    simp
    omega
  rw [hl, convDisplayGo, if_pos ⟨rfl, rfl⟩, findDD_append h1 h2]
  show '\\' :: '[' :: (c ++ '\\' :: ']' :: convDisplayGo (c.length + r.length + 3) r) =
    '\\' :: '[' :: (c ++ '\\' :: ']' :: convDisplayGo r.length r)
  rw [convDisplayGo_irrel (c.length + r.length + 3) r r.length (by omega) (Nat.le_refl _)]

/-- Witness for the amended claim C2: a multi-line content and a second
display pair after it, each converted separately. -/
theorem C2_amended_witness :
    (findDD "a\nx".data = none) ∧ ("a\nx".data.getLast? ≠ some '$') ∧
      convDisplay ('$' :: '$' :: ("a\nx".data ++ '$' :: '$' :: " t $$b$$".data)) =
        '\\' :: '[' :: ("a\nx".data ++ '\\' :: ']' :: convDisplay " t $$b$$".data) :=
  ⟨by decide, by decide, C2_amended_lazy_display _ _ (by decide) (by decide)⟩

/-! ### The label scan of the record parser -/

theorem frontBack_disjoint_aux (cl : List Char)
    (h : (frontLabel.isPrefixOf cl || starFrontLabel.isPrefixOf cl) = true) :
    (backLabel.isPrefixOf cl || starBackLabel.isPrefixOf cl) = false := by
  rw [Bool.or_eq_true] at h
  rcases h with h | h
  · cases cl with
    | nil => simp [frontLabel, List.isPrefixOf] at h
    | cons c1 cl1 =>
      simp only [frontLabel, List.isPrefixOf, Bool.and_eq_true, beq_iff_eq] at h
      obtain ⟨h1, _⟩ := h
      subst h1
      have hbf : (('b' : Char) == 'f') = false := by decide
      have hsf : (('*' : Char) == 'f') = false := by decide
      simp [backLabel, starBackLabel, List.isPrefixOf, hbf, hsf]
  · cases cl with
    | nil => simp [starFrontLabel, List.isPrefixOf] at h
    | cons c1 cl1 =>
      cases cl1 with
      | nil => simp [starFrontLabel, List.isPrefixOf] at h
      | cons c2 cl2 =>
        cases cl2 with
        | nil => simp [starFrontLabel, List.isPrefixOf] at h
        | cons c3 cl3 =>
          simp only [starFrontLabel, List.isPrefixOf, Bool.and_eq_true, beq_iff_eq] at h
          obtain ⟨h1, h2, h3, _⟩ := h
          subst h1; subst h2; subst h3
          have hb1 : (('b' : Char) == '*') = false := by decide
          have hb2 : (('b' : Char) == 'f') = false := by decide
          simp [backLabel, starBackLabel, List.isPrefixOf, hb1, hb2]

theorem front_not_back {s : List Char} (h : isFrontLine s = true) :
    isBackLine s = false := by
  simp only [isFrontLine] at h
  simp only [isBackLine]
  exact frontBack_disjoint_aux _ h

theorem phase2_some :
    ∀ (ls : List (List Char)) (f j f' b : Nat),
      phase2 f j ls = some (f', b) →
      f' = f ∧ j ≤ b ∧ ∃ lb, ls.get? (b - j) = some lb ∧ isBackLine lb = true := by
  intro ls
  induction ls with
  | nil => intro f j f' b h; simp [phase2] at h
  | cons l rest ih =>
    intro f j f' b h
    rw [phase2] at h
    split_ifs at h with hf hb
    · obtain ⟨h1, h2, lb, h3, h4⟩ := ih f (j + 1) f' b h
      refine ⟨h1, by omega, lb, ?_, h4⟩
      rw [show b - j = (b - (j + 1)) + 1 from by omega]
      simpa using h3
    · simp only [Option.some.injEq, Prod.mk.injEq] at h
      obtain ⟨rfl, rfl⟩ := h
      exact ⟨rfl, Nat.le_refl _, l, by simp, hb⟩
    · obtain ⟨h1, h2, lb, h3, h4⟩ := ih f (j + 1) f' b h
      refine ⟨h1, by omega, lb, ?_, h4⟩
      rw [show b - j = (b - (j + 1)) + 1 from by omega]
      simpa using h3

theorem phase2_isSome :
    ∀ (ls : List (List Char)) (f j : Nat),
      (∃ lb ∈ ls, isBackLine lb = true) → ∃ out, phase2 f j ls = some out := by
  intro ls
  induction ls with
  | nil => intro f j h; simp at h
  | cons l rest ih =>
    intro f j h
    rw [phase2]
    split_ifs with hf hb
    · obtain ⟨lb, hmem, hback⟩ := h
      rcases List.mem_cons.mp hmem with rfl | hmem'
      · rw [front_not_back hf] at hback
        exact absurd hback (by simp)
      · exact ih f (j + 1) ⟨lb, hmem', hback⟩
    · exact ⟨(f, j), rfl⟩
    · obtain ⟨lb, hmem, hback⟩ := h
      rcases List.mem_cons.mp hmem with rfl | hmem'
      · rw [Bool.not_eq_true] at hb
        rw [hb] at hback
        exact absurd hback (by simp)
      · exact ih f (j + 1) ⟨lb, hmem', hback⟩

theorem phase1_some :
    ∀ (ls : List (List Char)) (j f b : Nat),
      phase1 j ls = some (f, b) →
      j ≤ f ∧ f < b ∧
        (∃ lf, ls.get? (f - j) = some lf ∧ isFrontLine lf = true) ∧
        (∃ lb, ls.get? (b - j) = some lb ∧ isBackLine lb = true) := by
  intro ls
  induction ls with
  | nil => intro j f b h; simp [phase1] at h
  | cons l rest ih =>
    intro j f b h
    rw [phase1] at h
    split_ifs at h with hf
    · obtain ⟨rfl, hjb, lb, h3, h4⟩ := phase2_some rest j (j + 1) f b h
      refine ⟨Nat.le_refl _, by omega, ⟨l, by simp, hf⟩, ⟨lb, ?_, h4⟩⟩
      rw [show b - f = (b - (f + 1)) + 1 from by omega]
      simpa using h3
    · obtain ⟨hjf, hfb, ⟨lf, h5, h6⟩, ⟨lb, h7, h8⟩⟩ := ih (j + 1) f b h
      refine ⟨by omega, hfb, ⟨lf, ?_, h6⟩, ⟨lb, ?_, h8⟩⟩
      · rw [show f - j = (f - (j + 1)) + 1 from by omega]
        simpa using h5
      · rw [show b - j = (b - (j + 1)) + 1 from by omega]
        simpa using h7

theorem phase1_isSome :
    ∀ (ls : List (List Char)) (j : Nat),
      (∃ f b lf lb, f < b ∧ ls.get? f = some lf ∧ isFrontLine lf = true ∧
        ls.get? b = some lb ∧ isBackLine lb = true) →
      ∃ out, phase1 j ls = some out := by
  intro ls
  induction ls with
  | nil =>
    intro j h
    obtain ⟨f, b, lf, lb, _, h2, _⟩ := h
    simp at h2
  | cons l rest ih =>
    intro j h
    rw [phase1]
    split_ifs with hf
    · obtain ⟨f, b, lf, lb, hfb, h2, h3, h4, h5⟩ := h
      have h4' : rest.get? (b - 1) = some lb := by
        rw [show b = (b - 1) + 1 from by omega] at h4
        simpa using h4
      exact phase2_isSome rest j (j + 1) ⟨lb, List.get?_mem h4', h5⟩
    · obtain ⟨f, b, lf, lb, hfb, h2, h3, h4, h5⟩ := h
      cases f with
      | zero =>
        simp only [List.get?_cons_zero, Option.some.injEq] at h2
        rw [← h2] at h3
        exact absurd h3 hf
      | succ f' =>
        apply ih (j + 1)
        refine ⟨f', b - 1, lf, lb, by omega, by simpa using h2, h3, ?_, h5⟩
        rw [show b = (b - 1) + 1 from by omega] at h4
        simpa using h4

theorem markersOf_isSome_iff (raw : List Char) :
    (∃ p, markersOf raw = some p) ↔
      ∃ f b lf lb, f < b ∧ (blockLines raw).get? f = some lf ∧
        isFrontLine lf = true ∧
        (blockLines raw).get? b = some lb ∧ isBackLine lb = true := by
  constructor
  · rintro ⟨⟨f, b⟩, hp⟩
    obtain ⟨_, hfb, ⟨lf, h5, h6⟩, ⟨lb, h7, h8⟩⟩ :=
      phase1_some (blockLines raw) 0 f b hp
    exact ⟨f, b, lf, lb, hfb, by simpa using h5, h6, by simpa using h7, h8⟩
  · intro h
    obtain ⟨f, b, lf, lb, hfb, h2, h3, h4, h5⟩ := h
    exact phase1_isSome (blockLines raw) 0 ⟨f, b, lf, lb, hfb, h2, h3, h4, h5⟩

theorem processBlock_eq_none_of_empty {raw : List Char}
    (h : (pyStripL raw).isEmpty = true) : processBlock raw = none := by
  simp only [processBlock]
  rw [if_pos h]

theorem processBlock_eq_none_of_markers {raw : List Char}
    (hne : ¬(pyStripL raw).isEmpty = true) (hm : markersOf raw = none) :
    processBlock raw = none := by
  simp only [processBlock]
  rw [if_neg hne, hm]

theorem processBlock_eq_of_markers {raw : List Char} {f b : Nat}
    (hne : ¬(pyStripL raw).isEmpty = true) (hm : markersOf raw = some (f, b)) :
    processBlock raw =
      (if ((questionAt raw f b).isEmpty || (answerAt raw b).isEmpty) = true then none
        else some ⟨String.mk (questionAt raw f b), String.mk (answerAt raw b)⟩) := by
  simp only [processBlock]
  rw [if_neg hne, hm]

theorem processBlock_some_iff (raw : List Char) :
    (∃ card, processBlock raw = some card) ↔
      ((∃ p, markersOf raw = some p) ∧ questionOf raw ≠ [] ∧ answerOf raw ≠ []) := by
  by_cases hempty : (pyStripL raw).isEmpty = true
  · rw [processBlock_eq_none_of_empty hempty]
    constructor
    · rintro ⟨c, hc⟩
      simp at hc
    · rintro ⟨⟨p, hp⟩, _, _⟩
      have hnil : pyStripL raw = [] := by
        rwa [List.isEmpty_iff] at hempty
      rw [markersOf, blockLines, hnil] at hp
      simp [pySplitlines, pySplitlinesGo, findMarkersList, phase1] at hp
  · cases hm : markersOf raw with
    | none =>
      rw [processBlock_eq_none_of_markers hempty hm]
      constructor
      · rintro ⟨c, hc⟩
        simp at hc
      · rintro ⟨⟨p, hp⟩, _, _⟩
        simp at hp
    | some fb =>
      obtain ⟨f, b⟩ := fb
      rw [processBlock_eq_of_markers hempty hm]
      have hq : questionOf raw = questionAt raw f b := by
        rw [questionOf, hm]
      have ha : answerOf raw = answerAt raw b := by
        rw [answerOf, hm]
      split_ifs with hqa
      · constructor
        · rintro ⟨c, hc⟩
          simp at hc
        · rintro ⟨_, hq', ha'⟩
          rw [hq] at hq'
          rw [ha] at ha'
          rw [Bool.or_eq_true] at hqa
          rcases hqa with h | h
          · exact (hq' (by rwa [List.isEmpty_iff] at h)).elim
          · exact (ha' (by rwa [List.isEmpty_iff] at h)).elim
      · constructor
        · intro _
          refine ⟨⟨(f, b), rfl⟩, ?_, ?_⟩
          · rw [hq]
            intro hnil
            rw [hnil] at hqa
            simp at hqa
          · rw [ha]
            intro hnil
            rw [hnil] at hqa
            simp at hqa
        · intro _
          exact ⟨_, rfl⟩

theorem processBlock_fields {raw : List Char} {card : Card}
    (h : processBlock raw = some card) :
    card.question ≠ "" ∧ card.answer ≠ "" := by
  by_cases h1 : (pyStripL raw).isEmpty = true
  · rw [processBlock_eq_none_of_empty h1] at h
    simp at h
  · cases hm : markersOf raw with
    | none =>
      rw [processBlock_eq_none_of_markers h1 hm] at h
      simp at h
    | some fb =>
      obtain ⟨f, b⟩ := fb
      rw [processBlock_eq_of_markers h1 hm] at h
      by_cases hqa : ((questionAt raw f b).isEmpty || (answerAt raw b).isEmpty) = true
      · rw [if_pos hqa] at h
        simp at h
      · rw [if_neg hqa] at h
        simp only [Option.some.injEq] at h
        subst h
        have hq : questionAt raw f b ≠ [] := by
          intro hnil
          rw [hnil] at hqa
          simp at hqa
        have ha : answerAt raw b ≠ [] := by
          intro hnil
          rw [hnil] at hqa
          simp at hqa
        constructor
        · intro hc
          apply hq
          have hdc := congrArg String.data hc
          simpa using hdc
        · intro hc
          apply ha
          have hdc := congrArg String.data hc
          simpa using hdc

/-- Claim C4: a separator-delimited block contributes a record iff its
(stripped) lines contain a front-marker line and a strictly later
back-marker line, and both the extracted question and answer are non-empty
after trimming; a block failing these conditions is skipped entirely, and a
contributed record never has an empty field. -/
theorem C4_block_validity (raw : List Char) :
    ((∃ card, processBlock raw = some card) ↔
      ((∃ f b lf lb, f < b ∧ (blockLines raw).get? f = some lf ∧
          isFrontLine lf = true ∧
          (blockLines raw).get? b = some lb ∧ isBackLine lb = true) ∧
        questionOf raw ≠ [] ∧ answerOf raw ≠ [])) ∧
      ∀ card, processBlock raw = some card →
        card.question ≠ "" ∧ card.answer ≠ "" := by
  constructor
  · rw [processBlock_some_iff raw, markersOf_isSome_iff raw]
  · intro card hc
    exact processBlock_fields hc

/-- Claim C9: the parser is a total function (no exception can reach the
caller in this embedding); every empty or whitespace-only input yields the
empty sequence, and malformed blocks are only skipped — every record that
does reach the return value has non-empty question and answer.  The
diagnostics of the source go to a print side channel, which does not appear
in the return value. -/
theorem C9_parse_total (t : String) :
    (t.data.all isPySpace = true → parse_flashcards_from_text t = []) ∧
      ∀ card ∈ parse_flashcards_from_text t,
        card.question ≠ "" ∧ card.answer ≠ "" := by
  constructor
  · intro h
    unfold parse_flashcards_from_text
    rw [if_pos (by rw [h]; simp)]
  · intro card hmem
    unfold parse_flashcards_from_text at hmem
    split_ifs at hmem with hguard
    · simp at hmem
    · obtain ⟨raw, _, hpb⟩ := List.mem_filterMap.mp hmem
      exact processBlock_fields hpb

/-- Witness for claim C9: a whitespace-only input parses to no records. -/
theorem C9_witness : parse_flashcards_from_text " \n\t " = [] :=
  (C9_parse_total " \n\t ").1 (by decide)

/-- Witness for claim C4 at a concrete valid block. -/
theorem C4_witness :
    processBlock "Front:\nQ\nBack:\nA".data = some ⟨"Q", "A"⟩ ∧
      (⟨"Q", "A"⟩ : Card).question ≠ "" ∧ (⟨"Q", "A"⟩ : Card).answer ≠ "" :=
  ⟨by decide, (C4_block_validity "Front:\nQ\nBack:\nA".data).2 ⟨"Q", "A"⟩ (by decide)⟩
